import Mathlib

/-!
Shallow embedding of the bindiff delta codec core (package `core`, `types`,
`pkg/logger` hash helpers and the `cmd` apply driver) together with proofs
about its diff / optimize / apply / encode / decode pipeline.

Bytes are modelled as `Nat` (Go `byte` values are < 256; theorems that
re-read bytes written by the codec do not need that bound because the
codec itself only emits values < 256 for the numeric fields).  Go `int64`
and `int` values are modelled as `Int` (Go runs on a 64-bit platform, so
`int` and `int64` coincide).  Effect-only statements of the source
(logging, progress bars, `runtime.GC`, context cancellation polls that
never fire for a background context) have no observable influence on the
data path and are omitted from the embedding.
-/

namespace BinDiff

/-! ## types/types.go -/

/-- Operator constants from `types/types.go`.  Go declares
`type Operator uint8`; it is modelled as a plain `Nat` holding the byte
value, which also lets the decoder and applier handle unknown tags the
way the source does. -/
def OP_COPY : Nat := 0x01

def OP_INSERT : Nat := 0x02

def OP_REPLACE : Nat := 0x03

def OP_MATCH : Nat := 0x04

def OP_DELETE : Nat := 0x05

def PATCH_MAGIC : Nat := 0x42444646

def PATCH_VERSION : Nat := 1

/-- `types.Patch`: one edit operation. -/
structure Patch where
  op : Nat
  offset : Int
  length : Int
  data : List Nat
  deriving DecidableEq, Repr

/-! ## core sequential differ (`sequentialDiff` in the diff file) -/

/-- Length of the maximal pairwise-equal prefix of two byte lists; this is
how far the inner `for i < minLen && oldData[i] == newData[i]` loop of
`sequentialDiff` runs. -/
def countEq : List Nat → List Nat → Nat
  | a :: as, b :: bs => if a = b then countEq as bs + 1 else 0
  | _, _ => 0

/-- Length of the maximal pairwise-unequal prefix of two byte lists; this is
how far the inner `for i < minLen && oldData[i] != newData[i]` loop runs. -/
def countNe : List Nat → List Nat → Nat
  | a :: as, b :: bs => if a = b then 0 else countNe as bs + 1
  | _, _ => 0

/-- The scan loop of `sequentialDiff` over the common-length region: the
arguments are the not-yet-consumed suffixes of `oldData` and `newData`
(consumed in lockstep) and the current index `i`.  Equal runs become
`OP_COPY` operations, unequal runs become `OP_REPLACE` operations carrying
the bytes of `newData`. -/
def seqDiffAux (oldRem newRem : List Nat) (i : Nat) : List Patch :=
  match oldRem, newRem with
  | [], _ => []
  | _, [] => []
  | a :: as, b :: bs =>
    if a = b then
      let k := countEq (a :: as) (b :: bs)
      Patch.mk OP_COPY (i : Int) (k : Int) [] ::
        seqDiffAux ((a :: as).drop k) ((b :: bs).drop k) (i + k)
    else
      let k := countNe (a :: as) (b :: bs)
      Patch.mk OP_REPLACE (i : Int) (k : Int) ((b :: bs).take k) ::
        seqDiffAux ((a :: as).drop k) ((b :: bs).drop k) (i + k)
  termination_by oldRem.length
  decreasing_by
  · simp only [List.length_drop]
    have : 0 < countEq (a :: as) (b :: bs) := by
      simp [countEq, *]
    simp only [List.length_cons]
    omega
  · simp only [List.length_drop]
    have : 0 < countNe (a :: as) (b :: bs) := by
      simp [countNe, *]
    simp only [List.length_cons]
    omega

/-- Tail handling of `sequentialDiff`: one `OP_INSERT` if `newData` is
longer than the common region, one `OP_DELETE` if `oldData` is longer. -/
def seqDiffTail (oldData newData : List Nat) : List Patch :=
  let minLen := min oldData.length newData.length
  if newData.length > minLen then
    [Patch.mk OP_INSERT (minLen : Int) ((newData.length - minLen : Nat) : Int)
      (newData.drop minLen)]
  else if oldData.length > minLen then
    [Patch.mk OP_DELETE (minLen : Int) ((oldData.length - minLen : Nat) : Int) []]
  else []

/-- `sequentialDiff`: the reference differ, a linear two-cursor scan
emitting alternating `COPY`/`REPLACE` runs followed by the tail
`INSERT`/`DELETE`. -/
def sequentialDiff (oldData newData : List Nat) : List Patch :=
  seqDiffAux oldData newData 0 ++ seqDiffTail oldData newData

/-! ## Applier (`ApplyPatchWithOptions`) -/

/-- Two's-complement wrap of a Go `int`/`int64` value: Go integer
arithmetic wraps on overflow (defined behaviour), so every addition the
applier performs on the cursor goes through this. -/
def i64 (x : Int) : Int := (x + 2 ^ 63) % 2 ^ 64 - 2 ^ 63

/-- Total of the length fields of an operation list. -/
def totalLen (ps : List Patch) : Int := (ps.map Patch.length).sum

/-- Go slice expression `l[lo:hi]`: defined exactly when
`0 ≤ lo ≤ hi ≤ len(l)`; out-of-range indices panic in Go, modelled as
`none`. -/
def goSlice (l : List Nat) (lo hi : Int) : Option (List Nat) :=
  if 0 ≤ lo ∧ lo ≤ hi ∧ hi ≤ (l.length : Int) then
    some ((l.take hi.toNat).drop lo.toNat)
  else none

/-- One iteration of the patch loop in `ApplyPatchWithOptions`: the state
is the output built so far and the read cursor into `oldData`.  The
offset-validation skip, the gap copy, and the per-operation switch follow
the source line by line; a Go slice panic surfaces as `none`. -/
def applyStep (oldData : List Nat) (st : List Nat × Int) (p : Patch) :
    Option (List Nat × Int) :=
  if p.offset > (oldData.length : Int) then
    -- "Patch offset exceeds old data length, skipping" (non-fatal)
    some st
  else
    (if p.offset > st.2 then
      (goSlice oldData st.2 p.offset).map fun s => (st.1 ++ s, p.offset)
    else some st).bind fun st =>
      if p.op = OP_INSERT then
        some (st.1 ++ p.data, st.2)
      else if p.op = OP_REPLACE then
        some (st.1 ++ p.data, i64 (st.2 + p.length))
      else if p.op = OP_DELETE then
        some (st.1, i64 (st.2 + p.length))
      else if p.op = OP_COPY ∨ p.op = OP_MATCH then
        let endPos := i64 (st.2 + p.length)
        let endPos :=
          if endPos > (oldData.length : Int) then (oldData.length : Int) else endPos
        if st.2 < (oldData.length : Int) ∧ endPos > st.2 then
          (goSlice oldData st.2 endPos).map fun s => (st.1 ++ s, endPos)
        else some st
      else
        -- "Unknown patch operation" (non-fatal skip)
        some st

/-- The patch loop of `ApplyPatchWithOptions`, folded over the list of
operations. -/
def applyOps (oldData : List Nat) : List Patch → List Nat × Int →
    Option (List Nat × Int)
  | [], st => some st
  | p :: ps, st => (applyStep oldData st p).bind (applyOps oldData ps)

/-- `ApplyPatchWithOptions`: run the operation loop from an empty output
and cursor 0, then copy the remaining tail of `oldData` if the cursor has
not reached its end. -/
def ApplyPatchWithOptions (oldData : List Nat) (patches : List Patch) :
    Option (List Nat) :=
  (applyOps oldData patches ([], 0)).bind fun st =>
    if st.2 < (oldData.length : Int) then
      (goSlice oldData st.2 (oldData.length : Int)).map fun s => st.1 ++ s
    else some st.1

/-! ## Optimizers -/

/-- Merge condition of the exported `OptimizePatches`: adjacent `INSERT`s
or adjacent `COPY`s whose ranges are contiguous. -/
def canMergeAdj (p q : Patch) : Prop :=
  (p.op = OP_INSERT ∧ q.op = OP_INSERT ∧ p.offset + p.length = q.offset) ∨
  (p.op = OP_COPY ∧ q.op = OP_COPY ∧ p.offset + p.length = q.offset)

instance (p q : Patch) : Decidable (canMergeAdj p q) := by
  unfold canMergeAdj; infer_instance

/-- Merging step of `OptimizePatches`: an `INSERT` merge concatenates the
data, a `COPY` merge only extends the length. -/
def mergeAdj (p q : Patch) : Patch :=
  if p.op = OP_INSERT then
    { p with length := p.length + q.length, data := p.data ++ q.data }
  else
    { p with length := p.length + q.length }

/-- The double loop of `OptimizePatches`: the current operation absorbs
mergeable successors, then is emitted and the scan continues. -/
def optLoop : List Patch → List Patch
  | [] => []
  | [p] => [p]
  | p :: q :: rest =>
    if canMergeAdj p q then optLoop (mergeAdj p q :: rest)
    else p :: optLoop (q :: rest)
  termination_by l => l.length

/-- `OptimizePatches`: merge adjacent same-kind contiguous `INSERT`/`COPY`
operations; lists of at most one element are returned unchanged. -/
def OptimizePatches (patches : List Patch) : List Patch :=
  if patches.length ≤ 1 then patches else optLoop patches

/-- `canMergePatches` of the unexported optimizer: only contiguous
`INSERT`s merge. -/
def canMergePatches (p q : Patch) : Prop :=
  p.op = q.op ∧ p.op = OP_INSERT ∧ p.offset + p.length = q.offset

instance (p q : Patch) : Decidable (canMergePatches p q) := by
  unfold canMergePatches; infer_instance

/-- `mergePatches` of the unexported optimizer. -/
def mergePatches (p q : Patch) : Patch :=
  { p with length := p.length + q.length, data := p.data ++ q.data }

/-- Loop of the unexported `optimizePatches` (used by `streamingDiff`):
each operation is either merged into the previously emitted one or
appended. -/
def optSmallLoop : List Patch → List Patch
  | [] => []
  | [p] => [p]
  | p :: q :: rest =>
    if canMergePatches p q then optSmallLoop (mergePatches p q :: rest)
    else p :: optSmallLoop (q :: rest)
  termination_by l => l.length

/-- The unexported `optimizePatches`. -/
def optimizePatches (patches : List Patch) : List Patch :=
  if patches.length ≤ 1 then patches else optSmallLoop patches

/-! ## Operation-stream codec (`EncodePatch` / `DecodePatch`) -/

/-- Value of a little-endian byte list (least significant byte first). -/
def leVal : List Nat → Nat
  | [] => 0
  | b :: rest => b + 256 * leVal rest

/-- `binary.Write(buf, binary.LittleEndian, x)` for an `int64`: the eight
little-endian bytes of the two's-complement representation. -/
def int64ToLE (x : Int) : List Nat :=
  let u : Nat := (x % (2 ^ 64 : Nat)).toNat
  [u % 256, u / 2 ^ 8 % 256, u / 2 ^ 16 % 256, u / 2 ^ 24 % 256,
   u / 2 ^ 32 % 256, u / 2 ^ 40 % 256, u / 2 ^ 48 % 256, u / 2 ^ 56 % 256]

/-- `binary.Read` of an `int64` from eight little-endian bytes
(two's-complement sign reconstruction). -/
def leToInt64 (bs : List Nat) : Int :=
  let u := leVal (bs.take 8)
  if u < 2 ^ 63 then (u : Int) else (u : Int) - 2 ^ 64

/-- Serialization of one operation, as written by `EncodePatch`:
`op:u8 ‖ offset:i64 ‖ length:i64 ‖ (data iff INSERT/REPLACE)`. -/
def encodeOne (p : Patch) : List Nat :=
  p.op :: (int64ToLE p.offset ++ int64ToLE p.length ++
    (if p.op = OP_INSERT ∨ p.op = OP_REPLACE then p.data else []))

/-- `EncodePatch`: concatenated operation encodings. -/
def EncodePatch (ps : List Patch) : List Nat :=
  (ps.map encodeOne).flatten

/-- Result of `DecodePatch`.  The Go function returns the partial list
together with an error when the stream is truncated; `make([]byte, length)`
with a negative `length` is a runtime panic, recorded with the requested
size. -/
inductive DecPRes where
  | ok (ps : List Patch)
  | err (ps : List Patch)
  | panic (n : Int)
  deriving DecidableEq, Repr

/-- Prepend a decoded operation to the result of decoding the remaining
stream (the accumulation of `p = append(p, ...)` across loop turns). -/
def decCons (p : Patch) : DecPRes → DecPRes
  | .ok ps => .ok (p :: ps)
  | .err ps => .err (p :: ps)
  | .panic n => .panic n

/-- The loop of `DecodePatch`: while bytes remain, read the operator byte,
two little-endian `int64` fields, and — for `INSERT`/`REPLACE` — `length`
bytes of data.  A truncated numeric field or data segment is an error; a
negative data length panics in `make`.  Every turn consumes at least 17
bytes, so `fuel` (instantiated with the stream length) bounds the number
of turns and makes the recursion structural; the fuel-exhaustion case is
unreachable for that instantiation. -/
def decodeOps : Nat → List Nat → DecPRes
  | _, [] => .ok []
  | 0, _ :: _ => .err []
  | fuel + 1, b :: rest =>
    if 8 ≤ rest.length then
      let offset := leToInt64 (rest.take 8)
      let r1 := rest.drop 8
      if 8 ≤ r1.length then
        let length := leToInt64 (r1.take 8)
        let r2 := r1.drop 8
        if b = OP_INSERT ∨ b = OP_REPLACE then
          if length < 0 then .panic length
          else if length.toNat ≤ r2.length then
            decCons (Patch.mk b offset length (r2.take length.toNat))
              (decodeOps fuel (r2.drop length.toNat))
          else .err []
        else
          decCons (Patch.mk b offset length []) (decodeOps fuel r2)
      else .err []
    else .err []

/-- `DecodePatch`. -/
def DecodePatch (bs : List Nat) : DecPRes := decodeOps bs.length bs

/-- Well-formedness of an operation with respect to the stream codec: the
numeric fields fit in a non-negative `int64`, the data length matches the
length field for the data-carrying kinds, and other kinds carry no data.
Every operation built by the differ satisfies this (for inputs whose
lengths fit in an `int64`). -/
def encWF (p : Patch) : Prop :=
  0 ≤ p.offset ∧ p.offset < 2 ^ 63 ∧ 0 ≤ p.length ∧ p.length < 2 ^ 63 ∧
    ((p.op = OP_INSERT ∨ p.op = OP_REPLACE) → p.data.length = p.length.toNat) ∧
    (¬(p.op = OP_INSERT ∨ p.op = OP_REPLACE) → p.data = [])

instance (p : Patch) : Decidable (encWF p) := by
  unfold encWF; infer_instance

/-! ## Patch container (`types.DiffFile`, `DecodeDiffFile`) -/

/-- `types.DiffFile`: the decoded patch container. -/
structure DiffFile where
  magicNumber : Nat
  version : Nat
  oldFileNameLength : Nat
  fileName : List Nat
  newFileNameLength : Nat
  newFileName : List Nat
  oldSize : Nat
  newSize : Nat
  oldHash : List Nat
  newHash : List Nat
  offset : Int
  dataLength : Nat
  diff : List Patch
  deriving DecidableEq, Repr

/-- `binary.Read` of a `uint32` whose error is discarded: on a short
stream the remaining bytes are consumed and the target keeps its zero
value. -/
def readU32 (bs : List Nat) : Nat × List Nat :=
  if 4 ≤ bs.length then (leVal (bs.take 4), bs.drop 4) else (0, [])

/-- `binary.Read` of an `int32` (little-endian, two's complement), error
discarded. -/
def readI32 (bs : List Nat) : Int × List Nat :=
  if 4 ≤ bs.length then
    (let u := leVal (bs.take 4)
     if u < 2 ^ 31 then (u : Int) else (u : Int) - 2 ^ 32, bs.drop 4)
  else (0, [])

/-- `io.ReadFull` into a zeroed buffer of size `n`, error discarded: a
short stream fills only a prefix of the buffer. -/
def readBytes (n : Nat) (bs : List Nat) : List Nat × List Nat :=
  (bs.take n ++ List.replicate (n - bs.length) 0, bs.drop n)

/-- Result of `DecodeDiffFile` (an inner `DecodePatch` panic propagates). -/
inductive DFRes where
  | ok (df : DiffFile)
  | err (df : DiffFile)
  | panic (n : Int)
  deriving DecidableEq, Repr

/-- `DecodeDiffFile`: sequentially read every header field (all
`binary.Read` / `io.ReadFull` errors are ignored by the source), then
decode the operation stream; only a `DecodePatch` error is returned, with
the record's `Diff` left unset. -/
def DecodeDiffFile (data : List Nat) : DFRes :=
  let (magicNumber, r1) := readU32 data
  let (version, r2) := readU32 r1
  let (oldFileNameLength, r3) := readU32 r2
  let (fileName, r4) := readBytes oldFileNameLength r3
  let (newFileNameLength, r5) := readU32 r4
  let (newFileName, r6) := readBytes newFileNameLength r5
  let (oldSize, r7) := readU32 r6
  let (newSize, r8) := readU32 r7
  let (oldHash, r9) := readBytes 32 r8
  let (newHash, r10) := readBytes 32 r9
  let (offset, r11) := readI32 r10
  let (dataLength, r12) := readU32 r11
  let (diffData, _) := readBytes dataLength r12
  let df : DiffFile :=
    { magicNumber := magicNumber, version := version,
      oldFileNameLength := oldFileNameLength, fileName := fileName,
      newFileNameLength := newFileNameLength, newFileName := newFileName,
      oldSize := oldSize, newSize := newSize,
      oldHash := oldHash, newHash := newHash,
      offset := offset, dataLength := dataLength, diff := [] }
  match DecodePatch diffData with
  | .ok ps => .ok { df with diff := ps }
  | .err _ => .err df
  | .panic n => .panic n

/-! ## Configuration and strategy dispatch -/

/-- The fields of `config.Config` consumed by the core (`pkg/config`).
Go `int` fields are modelled as `Int`. -/
structure Config where
  blockSize : Int
  minMatchLength : Int
  maxMemoryMB : Int
  maxWorkers : Int
  enableFFT : Bool
  useParallel : Bool
  deriving DecidableEq, Repr

/-- `config.DefaultConfig()`. -/
def DefaultConfig : Config :=
  { blockSize := 1024, minMatchLength := 64, maxMemoryMB := 512,
    maxWorkers := 4, enableFFT := true, useParallel := true }

/-- Chunk size chosen by `streamingDiff`: a quarter of the memory limit
(Go truncated integer division), with a 64 KiB fallback when that is not
positive. -/
def streamChunkSize (cfg : Config) : Int :=
  let c := Int.tdiv (i64 (cfg.maxMemoryMB * 1024 * 1024)) 4
  if c ≤ 0 then 64 * 1024 else c

/-- The window loop of `streamingDiff`: diff each window of `newData`
against the full `oldData` with the sequential differ, shift the produced
offsets by the window start, and concatenate.  The loop advances by
`chunk` per turn; `fuel` (instantiated with `newData.length`, an upper
bound on the number of turns for any positive `chunk`) makes the
recursion structural. -/
def streamLoop (oldData newData : List Nat) (chunk : Nat) :
    Nat → Nat → List Patch
  | _, 0 => []
  | offset, fuel + 1 =>
    if offset < newData.length then
      let endIdx := min (offset + chunk) newData.length
      let window := (newData.take endIdx).drop offset
      ((sequentialDiff oldData window).map fun p =>
        { p with offset := p.offset + (offset : Int) }) ++
        streamLoop oldData newData chunk (offset + chunk) fuel
    else []

/-- `streamingDiff`: window the new data, diff per window, shift, then run
the unexported optimizer. -/
def streamingDiff (oldData newData : List Nat) (cfg : Config) : List Patch :=
  optimizePatches
    (streamLoop oldData newData (streamChunkSize cfg).toNat 0 newData.length)

/-- `parallelDiff`: every branch of the source delegates to
`sequentialDiff` (the worker path is an explicit fallback). -/
def parallelDiff (oldData newData : List Nat) (cfg : Config) : List Patch :=
  if cfg.maxWorkers ≤ 1 then sequentialDiff oldData newData
  else if Int.tdiv (newData.length : Int) cfg.maxWorkers < cfg.blockSize then
    sequentialDiff oldData newData
  else sequentialDiff oldData newData

/-- `DiffWithOptions`: memory guard first (streaming when the combined
size exceeds the configured ceiling), then the parallel/sequential
choice. -/
def DiffWithOptions (oldData newData : List Nat) (cfg : Config) : List Patch :=
  let totalSize : Int := ((oldData.length + newData.length : Nat) : Int)
  let maxMemory : Int := i64 (cfg.maxMemoryMB * 1024 * 1024)
  if totalSize > maxMemory then streamingDiff oldData newData cfg
  else if cfg.useParallel ∧ (oldData.length : Int) > cfg.blockSize * 10 then
    parallelDiff oldData newData cfg
  else sequentialDiff oldData newData

/-! ## SHA-256 (`crypto/sha256`, used by `utils.ComputeHash`) -/

/-- Reduction to a 32-bit word. -/
def w32 (x : Nat) : Nat := x % 4294967296

/-- 32-bit rotate right (inputs are < 2^32 wherever this is used). -/
def rotr (n x : Nat) : Nat := x / 2 ^ n + x % 2 ^ n * 2 ^ (32 - n)

/-- 32-bit complement. -/
def not32 (x : Nat) : Nat := x ^^^ 0xFFFFFFFF

def sigma0 (x : Nat) : Nat := rotr 7 x ^^^ rotr 18 x ^^^ x / 2 ^ 3

def sigma1 (x : Nat) : Nat := rotr 17 x ^^^ rotr 19 x ^^^ x / 2 ^ 10

def bigSigma0 (x : Nat) : Nat := rotr 2 x ^^^ rotr 13 x ^^^ rotr 22 x

def bigSigma1 (x : Nat) : Nat := rotr 6 x ^^^ rotr 11 x ^^^ rotr 25 x

def ch (x y z : Nat) : Nat := x &&& y ^^^ not32 x &&& z

def maj (x y z : Nat) : Nat := x &&& y ^^^ x &&& z ^^^ y &&& z

/-- SHA-256 round constants (the 64 values of FIPS 180-4 section 4.2.2,
written in decimal). -/
def K64 : List Nat :=
  [1116352408, 1899447441, 3049323471, 3921009573,
   961987163, 1508970993, 2453635748, 2870763221,
   3624381080, 310598401, 607225278, 1426881987,
   1925078388, 2162078206, 2614888103, 3248222580,
   3835390401, 4022224774, 264347078, 604807628,
   770255983, 1249150122, 1555081692, 1996064986,
   2554220882, 2821834349, 2952996808, 3210313671,
   3336571891, 3584528711, 113926993, 338241895,
   666307205, 773529912, 1294757372, 1396182291,
   1695183700, 1986661051, 2177026350, 2456956037,
   2730485921, 2820302411, 3259730800, 3345764771,
   3516065817, 3600352804, 4094571909, 275423344,
   430227734, 506948616, 659060556, 883997877,
   958139571, 1322822218, 1537002063, 1747873779,
   1955562222, 2024104815, 2227730452, 2361852424,
   2428436474, 2756734187, 3204031479, 3329325298]

/-- SHA-256 initial hash state (FIPS 180-4 section 5.3.3, decimal). -/
def H0 : List Nat :=
  [1779033703, 3144134277, 1013904242, 2773480762,
   1359893119, 2600822924, 528734635, 1541459225]

/-- Big-endian bytes of a 32-bit word. -/
def be32 (w : Nat) : List Nat :=
  [w / 2 ^ 24 % 256, w / 2 ^ 16 % 256, w / 2 ^ 8 % 256, w % 256]

/-- Big-endian bytes of a 64-bit value. -/
def be64 (n : Nat) : List Nat :=
  [n / 2 ^ 56 % 256, n / 2 ^ 48 % 256, n / 2 ^ 40 % 256, n / 2 ^ 32 % 256,
   n / 2 ^ 24 % 256, n / 2 ^ 16 % 256, n / 2 ^ 8 % 256, n % 256]

/-- SHA-256 message padding: `0x80`, zeros to 56 mod 64, then the bit
length as big-endian 64-bit. -/
def shaPad (msg : List Nat) : List Nat :=
  let r := (msg.length + 1) % 64
  let k := if r ≤ 56 then 56 - r else 120 - r
  msg ++ 0x80 :: (List.replicate k 0 ++ be64 (8 * msg.length))

/-- Group bytes into big-endian 32-bit words. -/
def beWords : List Nat → List Nat
  | a :: b :: c :: d :: rest => (a * 2 ^ 24 + b * 2 ^ 16 + c * 2 ^ 8 + d) :: beWords rest
  | _ => []

/-- Extend the 16-word message schedule by `n` further words. -/
def extendSched (w : List Nat) : Nat → List Nat
  | 0 => w
  | n + 1 =>
    extendSched
      (w ++ [w32 (w.getD (w.length - 16) 0 + sigma0 (w.getD (w.length - 15) 0) +
        w.getD (w.length - 7) 0 + sigma1 (w.getD (w.length - 2) 0))]) n

/-- One SHA-256 compression round over the state `[a,b,c,d,e,f,g,h]`. -/
def compressRound (st : List Nat) (kw : Nat × Nat) : List Nat :=
  match st with
  | [a, b, c, d, e, f, g, h] =>
    let t1 := w32 (h + bigSigma1 e + ch e f g + kw.1 + kw.2)
    let t2 := w32 (bigSigma0 a + maj a b c)
    [w32 (t1 + t2), a, b, c, w32 (d + t1), e, f, g]
  | _ => st

/-- Process one 64-byte chunk against the running hash state. -/
def processChunk (H : List Nat) (chunk : List Nat) : List Nat :=
  let w := extendSched (beWords chunk) 48
  let st := (K64.zip w).foldl compressRound H
  (H.zip st).map fun p => w32 (p.1 + p.2)

/-- Split a byte list into 64-byte chunks.  Each turn consumes at least
one byte, so `fuel` (instantiated with the list length) makes the
recursion structural. -/
def chunks64Go : Nat → List Nat → List (List Nat)
  | _, [] => []
  | 0, _ :: _ => []
  | fuel + 1, b :: rest => ((b :: rest).take 64) :: chunks64Go fuel ((b :: rest).drop 64)

/-- Split a byte list into 64-byte chunks. -/
def chunks64 (l : List Nat) : List (List Nat) := chunks64Go l.length l

/-- SHA-256 digest (32 bytes) of a byte list. -/
def sha256 (msg : List Nat) : List Nat :=
  (((chunks64 (shaPad msg)).foldl processChunk H0).map be32).flatten

/-- `utils.ComputeHash` / `core.ComputeHash`: `sha256.Sum256`. -/
def ComputeHash (data : List Nat) : List Nat := sha256 data

/-- `utils.CompareHashes`: length check plus element-wise comparison. -/
def CompareHashes : List Nat → List Nat → Bool
  | [], [] => true
  | a :: as, b :: bs => a == b && CompareHashes as bs
  | _, _ => false

/-! ## The apply driver (`runApply` of the cmd package) -/

/-- Outcome of the apply driver (file system effects omitted). -/
inductive RunApplyRes where
  | ok (out : List Nat)
  | hashMismatch
  | resultHashMismatch
  | decodeFailed
  | panicked
  deriving DecidableEq, Repr

/-- Steps 5–8 of `runApply`, after the patch container has been decoded:
verify the old-file hash (fatal mismatch, nothing is applied), apply the
operations, then optionally verify the result hash. -/
def runApplyDecoded (oldData : List Nat) (df : DiffFile) (verifyResult : Bool) :
    RunApplyRes :=
  if CompareHashes (ComputeHash oldData) df.oldHash then
    match ApplyPatchWithOptions oldData df.diff with
    | none => .panicked
    | some newData =>
      if verifyResult && !CompareHashes (ComputeHash newData) df.newHash then
        .resultHashMismatch
      else .ok newData
  else .hashMismatch

/-- `runApply` data path: decode the patch container, then the decoded
phase above. -/
def runApply (oldData patchBytes : List Nat) (verifyResult : Bool) : RunApplyRes :=
  match DecodeDiffFile patchBytes with
  | .ok df => runApplyDecoded oldData df verifyResult
  | .err _ => .decodeFailed
  | .panic _ => .panicked

/-! ## Concrete inputs used by counterexamples and witnesses -/

/-- A syntactically complete patch container whose magic field is
`0x00000000` (wrong) and whose version is 1: empty names, zero sizes,
all-zero hashes, zero aligner offset, empty operation stream. -/
def wrongMagicStream : List Nat :=
  [0, 0, 0, 0] ++ [1, 0, 0, 0] ++ [0, 0, 0, 0] ++ [0, 0, 0, 0] ++
    [0, 0, 0, 0] ++ [0, 0, 0, 0] ++ List.replicate 64 0 ++ [0, 0, 0, 0] ++
    [0, 0, 0, 0]

/-- An operation stream consisting of a single `INSERT` whose length field
is the two's-complement encoding of `-1`. -/
def negLenStream : List Nat := 2 :: (int64ToLE 0 ++ int64ToLE (-1))

/-- A configuration with a 1 MiB memory ceiling (all other fields default). -/
def smallMemConfig : Config := { DefaultConfig with maxMemoryMB := 1 }

/-- An old file one byte past the 1 MiB streaming threshold. -/
def bigOld : List Nat := List.replicate (2 ^ 20 + 1) 0

/-- Classification used for decoder totality: a decode outcome is benign
unless it is a panic, and a panic only ever reports a negative requested
buffer size. -/
def panicOnlyNegative : DecPRes → Prop
  | .panic n => n < 0
  | _ => True

/-! ## Lemmas about the run counters of the sequential differ -/

theorem countEq_le_left : ∀ o n : List Nat, countEq o n ≤ o.length := by
  intro o
  induction o with
  | nil => intro n; cases n <;> simp [countEq]
  | cons a as ih =>
    intro n
    cases n with
    | nil => simp [countEq]
    | cons b bs =>
      by_cases h : a = b <;> simp [countEq, h]
      exact ih bs

theorem countEq_le_right : ∀ o n : List Nat, countEq o n ≤ n.length := by
  intro o
  induction o with
  | nil => intro n; cases n <;> simp [countEq]
  | cons a as ih =>
    intro n
    cases n with
    | nil => simp [countEq]
    | cons b bs =>
      by_cases h : a = b <;> simp [countEq, h]
      exact ih bs

theorem countEq_take_eq :
    ∀ o n : List Nat, o.take (countEq o n) = n.take (countEq o n) := by
  intro o
  induction o with
  | nil => intro n; cases n <;> simp [countEq]
  | cons a as ih =>
    intro n
    cases n with
    | nil => simp [countEq]
    | cons b bs =>
      by_cases h : a = b <;> simp [countEq, h]
      exact ih bs

theorem countNe_le_left : ∀ o n : List Nat, countNe o n ≤ o.length := by
  intro o
  induction o with
  | nil => intro n; cases n <;> simp [countNe]
  | cons a as ih =>
    intro n
    cases n with
    | nil => simp [countNe]
    | cons b bs =>
      by_cases h : a = b <;> simp [countNe, h]
      exact ih bs

theorem countNe_le_right : ∀ o n : List Nat, countNe o n ≤ n.length := by
  intro o
  induction o with
  | nil => intro n; cases n <;> simp [countNe]
  | cons a as ih =>
    intro n
    cases n with
    | nil => simp [countNe]
    | cons b bs =>
      by_cases h : a = b <;> simp [countNe, h]
      exact ih bs

/-! ## Lemmas about single applier steps -/

theorem goSlice_of_le (l : List Nat) (lo hi : Nat) (h1 : lo ≤ hi)
    (h2 : hi ≤ l.length) :
    goSlice l (lo : Int) (hi : Int) = some ((l.take hi).drop lo) := by
  unfold goSlice
  rw [if_pos]
  · simp
  · refine ⟨by positivity, by exact_mod_cast h1, by exact_mod_cast h2⟩

theorem i64_eq_of_lt (x : Int) (h1 : -2 ^ 63 ≤ x) (h2 : x < 2 ^ 63) :
    i64 x = x := by
  unfold i64
  omega

theorem applyStep_copy (A out : List Nat) (i k : Nat) (hiA : i < A.length)
    (hk : 1 ≤ k) (hik : i + k ≤ A.length) (h63 : i + k < 2 ^ 63) :
    applyStep A (out, (i : Int)) (Patch.mk OP_COPY (i : Int) (k : Int) []) =
      some (out ++ (A.drop i).take k, ((i + k : Nat) : Int)) := by
  simp only [applyStep]
  rw [if_neg (by omega)]
  rw [if_neg (by omega)]
  simp only [Option.some_bind]
  rw [i64_eq_of_lt ((i : Int) + (k : Int)) (by omega) (by omega)]
  simp only [OP_COPY, OP_INSERT, OP_REPLACE, OP_MATCH, OP_DELETE]
  norm_num
  have htr : ¬ ((A.length : Int) < (i : Int) + (k : Int)) := by omega
  simp only [if_neg htr]
  rw [if_pos ⟨hiA, by omega⟩]
  have hs := goSlice_of_le A i (i + k) (by omega) hik
  rw [List.drop_take] at hs
  have hkk : i + k - i = k := by omega
  rw [hkk] at hs
  push_cast at hs
  rw [hs]
  simp

theorem applyStep_replace (A out d : List Nat) (i k : Nat) (hiA : i ≤ A.length)
    (h63 : i + k < 2 ^ 63) :
    applyStep A (out, (i : Int)) (Patch.mk OP_REPLACE (i : Int) (k : Int) d) =
      some (out ++ d, ((i + k : Nat) : Int)) := by
  simp only [applyStep]
  rw [if_neg (by omega)]
  rw [if_neg (by omega)]
  simp only [Option.some_bind]
  rw [i64_eq_of_lt ((i : Int) + (k : Int)) (by omega) (by omega)]
  simp only [OP_INSERT, OP_REPLACE]
  norm_num

theorem applyStep_insert (A out d : List Nat) (i : Nat) (l : Int)
    (hiA : i ≤ A.length) :
    applyStep A (out, (i : Int)) (Patch.mk OP_INSERT (i : Int) l d) =
      some (out ++ d, (i : Int)) := by
  simp only [applyStep]
  rw [if_neg (by omega)]
  rw [if_neg (by omega)]
  simp only [Option.some_bind, OP_INSERT]
  norm_num

theorem applyStep_delete (A out : List Nat) (i k : Nat) (hiA : i ≤ A.length)
    (h63 : i + k < 2 ^ 63) :
    applyStep A (out, (i : Int)) (Patch.mk OP_DELETE (i : Int) (k : Int) []) =
      some (out, ((i + k : Nat) : Int)) := by
  simp only [applyStep]
  rw [if_neg (by omega)]
  rw [if_neg (by omega)]
  simp only [Option.some_bind]
  rw [i64_eq_of_lt ((i : Int) + (k : Int)) (by omega) (by omega)]
  simp only [OP_INSERT, OP_REPLACE, OP_DELETE]
  norm_num

theorem applyOps_append (old : List Nat) (xs ys : List Patch) (st : List Nat × Int) :
    applyOps old (xs ++ ys) st =
      (applyOps old xs st).bind fun st => applyOps old ys st := by
  induction xs generalizing st with
  | nil => simp [applyOps]
  | cons p ps ih =>
    simp only [List.cons_append, applyOps]
    cases applyStep old st p with
    | none => simp
    | some st2 => simp [ih]

/-! ## Applying the reference diff reproduces the new data -/

theorem applyOps_seqDiffAux (A B : List Nat) (hA63 : A.length < 2 ^ 63) :
    ∀ n i, A.length - i = n → i ≤ A.length → i ≤ B.length →
    applyOps A (seqDiffAux (A.drop i) (B.drop i) i) (B.take i, (i : Int)) =
      some (B.take (min A.length B.length), ((min A.length B.length : Nat) : Int)) := by
  intro n
  induction n using Nat.strong_induction_on with
  | _ n IH =>
    intro i hn hiA hiB
    rcases hA : A.drop i with _ | ⟨a, as⟩
    · have hlen : A.length ≤ i := by
        have := congrArg List.length hA
        simp [List.length_drop] at this
        omega
      have hmin : min A.length B.length = i := by omega
      simp [seqDiffAux, applyOps, hmin]
    · rcases hB : B.drop i with _ | ⟨b, bs⟩
      · have hlen : B.length ≤ i := by
          have := congrArg List.length hB
          simp [List.length_drop] at this
          omega
        have hmin : min A.length B.length = i := by omega
        simp [seqDiffAux, applyOps, hmin]
      · have hiA' : i < A.length := by
          have := congrArg List.length hA
          simp [List.length_drop] at this
          omega
        have hiB' : i < B.length := by
          have := congrArg List.length hB
          simp [List.length_drop] at this
          omega
        by_cases hab : a = b
        · set k := countEq (a :: as) (b :: bs) with hk
          have hk1 : 1 ≤ k := by
            rw [hk]; simp [countEq, hab]
          have hkA : i + k ≤ A.length := by
            have h1 : k ≤ as.length + 1 := by
              simpa using countEq_le_left (a :: as) (b :: bs)
            have h2 := congrArg List.length hA
            simp [List.length_drop] at h2
            omega
          have hkB : i + k ≤ B.length := by
            have h1 : k ≤ bs.length + 1 := by
              simpa using countEq_le_right (a :: as) (b :: bs)
            have h2 := congrArg List.length hB
            simp [List.length_drop] at h2
            omega
          rw [seqDiffAux]
          simp only [if_pos hab, ← hk]
          rw [applyOps]
          have hstep := applyStep_copy A (B.take i) i k hiA' hk1 hkA (by omega)
          rw [hstep]
          simp only [Option.some_bind]
          have hrun : (A.drop i).take k = (B.drop i).take k := by
            rw [hA, hB, hk]
            exact countEq_take_eq (a :: as) (b :: bs)
          rw [hrun, ← List.take_add]
          have hdA : (a :: as).drop k = A.drop (i + k) := by
            rw [← hA, List.drop_drop, Nat.add_comm]
          have hdB : (b :: bs).drop k = B.drop (i + k) := by
            rw [← hB, List.drop_drop, Nat.add_comm]
          rw [hdA, hdB]
          exact IH (A.length - (i + k)) (by omega) (i + k) rfl (by omega) (by omega)
        · set k := countNe (a :: as) (b :: bs) with hk
          have hk1 : 1 ≤ k := by
            rw [hk]; simp [countNe, hab]
          have hkA : i + k ≤ A.length := by
            have h1 : k ≤ as.length + 1 := by
              simpa using countNe_le_left (a :: as) (b :: bs)
            have h2 := congrArg List.length hA
            simp [List.length_drop] at h2
            omega
          have hkB : i + k ≤ B.length := by
            have h1 : k ≤ bs.length + 1 := by
              simpa using countNe_le_right (a :: as) (b :: bs)
            have h2 := congrArg List.length hB
            simp [List.length_drop] at h2
            omega
          rw [seqDiffAux]
          simp only [if_neg hab, ← hk]
          rw [applyOps]
          have hstep := applyStep_replace A (B.take i) ((b :: bs).take k) i k
            (le_of_lt hiA') (by omega)
          rw [hstep]
          simp only [Option.some_bind]
          have hdata : (b :: bs).take k = (B.drop i).take k := by rw [hB]
          rw [hdata, ← List.take_add]
          have hdA : (a :: as).drop k = A.drop (i + k) := by
            rw [← hA, List.drop_drop, Nat.add_comm]
          have hdB : (b :: bs).drop k = B.drop (i + k) := by
            rw [← hB, List.drop_drop, Nat.add_comm]
          rw [hdA, hdB]
          exact IH (A.length - (i + k)) (by omega) (i + k) rfl (by omega) (by omega)

theorem apply_sequentialDiff (A B : List Nat) (hA63 : A.length < 2 ^ 63) :
    ApplyPatchWithOptions A (sequentialDiff A B) = some B := by
  unfold ApplyPatchWithOptions sequentialDiff
  rw [applyOps_append]
  have h0 := applyOps_seqDiffAux A B hA63 (A.length - 0) 0 rfl (Nat.zero_le _) (Nat.zero_le _)
  simp only [List.drop_zero, List.take_zero, Nat.cast_zero] at h0
  rw [h0]
  simp only [Option.some_bind]
  have hchoice := min_choice A.length B.length
  have hminA : min A.length B.length ≤ A.length := Nat.min_le_left _ _
  have hminB : min A.length B.length ≤ B.length := Nat.min_le_right _ _
  unfold seqDiffTail
  by_cases hBm : B.length > min A.length B.length
  · have hmA : min A.length B.length = A.length := by
      rcases hchoice with h | h
      · exact h
      · omega
    rw [if_pos hBm]
    simp only [applyOps]
    rw [applyStep_insert A (B.take (min A.length B.length))
      (B.drop (min A.length B.length)) (min A.length B.length) _ hminA]
    simp only [Option.some_bind, List.take_append_drop]
    rw [if_neg (by omega)]
  · rw [if_neg hBm]
    have hmB : min A.length B.length = B.length := by omega
    by_cases hAm : A.length > min A.length B.length
    · rw [if_pos hAm]
      simp only [applyOps]
      rw [applyStep_delete A (B.take (min A.length B.length))
        (min A.length B.length) (A.length - min A.length B.length) hminA (by omega)]
      simp only [Option.some_bind]
      have hsum : min A.length B.length + (A.length - min A.length B.length) = A.length := by
        omega
      rw [hsum]
      rw [if_neg (by omega)]
      rw [hmB, List.take_length]
    · rw [if_neg hAm]
      simp only [applyOps, Option.some_bind]
      rw [if_neg (by omega)]
      rw [hmB, List.take_length]

/-! ## Codec round-trip lemmas -/

theorem length_int64ToLE (x : Int) : (int64ToLE x).length = 8 := by
  simp [int64ToLE]

theorem leToInt64_int64ToLE (x : Int) (h0 : 0 ≤ x) (h1 : x < 2 ^ 63) :
    leToInt64 (int64ToLE x) = x := by
  unfold int64ToLE leToInt64
  have hmod : x % ((2 ^ 64 : Nat) : Int) = x := by
    rw [Int.emod_eq_of_lt h0 (by push_cast; omega)]
  simp only [hmod]
  have hx : x.toNat < 2 ^ 63 := by omega
  simp only [List.take, leVal]
  have hval : x.toNat % 256 + 256 * (x.toNat / 2 ^ 8 % 256 + 256 *
      (x.toNat / 2 ^ 16 % 256 + 256 * (x.toNat / 2 ^ 24 % 256 + 256 *
      (x.toNat / 2 ^ 32 % 256 + 256 * (x.toNat / 2 ^ 40 % 256 + 256 *
      (x.toNat / 2 ^ 48 % 256 + 256 * (x.toNat / 2 ^ 56 % 256 + 256 * 0))))))) =
      x.toNat := by
    omega
  rw [hval]
  rw [if_pos hx]
  omega

theorem length_encodeOne (p : Patch) :
    (encodeOne p).length =
      17 + (if p.op = OP_INSERT ∨ p.op = OP_REPLACE then p.data.length else 0) := by
  unfold encodeOne
  split_ifs with h <;> simp [length_int64ToLE] <;> omega

theorem decodeOps_encodeOne (p : Patch) (rest : List Nat) (hwf : encWF p)
    (fuel : Nat) :
    decodeOps (fuel + 1) (encodeOne p ++ rest) =
      decCons p (decodeOps fuel rest) := by
  obtain ⟨ho0, ho1, hl0, hl1, hdata, hnodata⟩ := hwf
  unfold encodeOne
  simp only [List.cons_append, List.append_assoc]
  rw [decodeOps]
  have hlo := length_int64ToLE p.offset
  have hll := length_int64ToLE p.length
  rw [if_pos (by simp [hlo])]
  rw [List.take_append_of_le_length (by omega), List.take_of_length_le (by omega)]
  rw [List.drop_append_of_le_length (by omega), List.drop_of_length_le (by omega),
    List.nil_append]
  rw [leToInt64_int64ToLE p.offset ho0 ho1]
  rw [if_pos (by simp [hll])]
  rw [List.take_append_of_le_length (by omega), List.take_of_length_le (by omega)]
  rw [List.drop_append_of_le_length (by omega), List.drop_of_length_le (by omega),
    List.nil_append]
  rw [leToInt64_int64ToLE p.length hl0 hl1]
  by_cases hop : p.op = OP_INSERT ∨ p.op = OP_REPLACE
  · rw [if_pos hop, if_pos hop, if_neg (by omega)]
    have hd := hdata hop
    rw [if_pos (by simp [hd])]
    rw [List.take_append_of_le_length (by omega), List.take_of_length_le (by omega)]
    rw [List.drop_append_of_le_length (by omega), List.drop_of_length_le (by omega),
      List.nil_append]
  · rw [if_neg hop, if_neg hop]
    rw [List.nil_append]
    have hpeq : Patch.mk p.op p.offset p.length [] = p := by
      have := hnodata hop
      cases p
      simp_all
    rw [hpeq]

theorem decodeOps_fuel_irrelevant :
    ∀ (m : Nat) (bs : List Nat) (f1 f2 : Nat), bs.length = m →
      bs.length ≤ f1 → bs.length ≤ f2 →
      decodeOps f1 bs = decodeOps f2 bs := by
  intro m
  induction m using Nat.strong_induction_on with
  | _ m IH =>
    intro bs f1 f2 hm h1 h2
    rcases bs with _ | ⟨b, rest⟩
    · cases f1 <;> cases f2 <;> rfl
    · have hlen : rest.length + 1 = m := by simpa using hm
      obtain ⟨f1p, rfl⟩ : ∃ f, f1 = f + 1 :=
        ⟨f1 - 1, by simp at h1; omega⟩
      obtain ⟨f2p, rfl⟩ : ∃ f, f2 = f + 1 :=
        ⟨f2 - 1, by simp at h2; omega⟩
      rw [decodeOps, decodeOps]
      by_cases ha : 8 ≤ rest.length
      · rw [if_pos ha, if_pos ha]
        by_cases hb : 8 ≤ (rest.drop 8).length
        · rw [if_pos hb, if_pos hb]
          set r2 := (rest.drop 8).drop 8 with hr2
          have hr2len : r2.length ≤ rest.length := by
            rw [hr2]; simp
          set len := leToInt64 ((rest.drop 8).take 8) with hlendef
          by_cases hc : b = OP_INSERT ∨ b = OP_REPLACE
          · rw [if_pos hc, if_pos hc]
            by_cases hd : len < 0
            · rw [if_pos hd, if_pos hd]
            · rw [if_neg hd, if_neg hd]
              by_cases he : len.toNat ≤ r2.length
              · rw [if_pos he, if_pos he]
                have := IH (r2.drop len.toNat).length
                  (by simp [hr2]; omega) (r2.drop len.toNat) f1p f2p rfl
                  (by simp at h1 ⊢; simp [hr2] at *; omega)
                  (by simp at h2 ⊢; simp [hr2] at *; omega)
                rw [this]
              · rw [if_neg he, if_neg he]
          · rw [if_neg hc, if_neg hc]
            have := IH r2.length (by simp [hr2]; omega) r2 f1p f2p rfl
              (by simp at h1 ⊢; simp [hr2] at *; omega)
              (by simp at h2 ⊢; simp [hr2] at *; omega)
            rw [this]
        · rw [if_neg hb, if_neg hb]
      · rw [if_neg ha, if_neg ha]

theorem DecodePatch_EncodePatch (ps : List Patch) (h : ∀ p ∈ ps, encWF p) :
    DecodePatch (EncodePatch ps) = .ok ps := by
  suffices H : ∀ fuel, (EncodePatch ps).length ≤ fuel →
      decodeOps fuel (EncodePatch ps) = .ok ps by
    exact H _ le_rfl
  induction ps with
  | nil =>
    intro fuel _
    rw [show EncodePatch [] = [] from rfl]
    cases fuel <;> rfl
  | cons p ps ih =>
    intro fuel hfuel
    have henc : EncodePatch (p :: ps) = encodeOne p ++ EncodePatch ps := by
      simp [EncodePatch]
    rw [henc] at hfuel ⊢
    have h17 : 17 ≤ (encodeOne p).length := by
      rw [length_encodeOne]
      split_ifs <;> omega
    have hlen : (encodeOne p ++ EncodePatch ps).length =
        (encodeOne p).length + (EncodePatch ps).length := by
      simp
    obtain ⟨fp, rfl⟩ : ∃ f, fuel = f + 1 := ⟨fuel - 1, by omega⟩
    rw [decodeOps_encodeOne p _ (h p (by simp)) fp]
    rw [decodeOps_fuel_irrelevant (EncodePatch ps).length (EncodePatch ps) fp
      (EncodePatch ps).length rfl (by omega) le_rfl]
    rw [ih (fun q hq => h q (by simp [hq])) (EncodePatch ps).length le_rfl]
    rfl

/-! ## Shape of the operations emitted by the sequential differ -/

theorem seqDiffAux_mem :
    ∀ (m : Nat) (o n : List Nat) (i : Nat), o.length = m →
      ∀ p ∈ seqDiffAux o n i,
        ((p.op = OP_COPY ∧ p.data = []) ∨
          (p.op = OP_REPLACE ∧ p.data.length = p.length.toNat)) ∧
        (i : Int) ≤ p.offset ∧ 1 ≤ p.length ∧
        p.offset + p.length ≤ ((i + min o.length n.length : Nat) : Int) := by
  intro m
  induction m using Nat.strong_induction_on with
  | _ m IH =>
    intro o n i hm p hp
    rcases o with _ | ⟨a, as⟩
    · simp [seqDiffAux] at hp
    · rcases n with _ | ⟨b, bs⟩
      · simp [seqDiffAux] at hp
      · by_cases hab : a = b
        · rw [seqDiffAux, if_pos hab] at hp
          set k := countEq (a :: as) (b :: bs) with hk
          have hk1 : 1 ≤ k := by rw [hk]; simp [countEq, hab]
          have hkA : k ≤ as.length + 1 := by
            simpa using countEq_le_left (a :: as) (b :: bs)
          have hkB : k ≤ bs.length + 1 := by
            simpa using countEq_le_right (a :: as) (b :: bs)
          rw [List.mem_cons] at hp
          rcases hp with hp | hp
          · subst hp
            refine ⟨Or.inl ⟨rfl, rfl⟩, by simp, by simp [hk1], ?_⟩
            simp only [List.length_cons]
            push_cast
            omega
          · have := IH ((a :: as).drop k).length
              (by simp only [List.length_drop, List.length_cons] at hm ⊢; omega)
              ((a :: as).drop k) ((b :: bs).drop k) (i + k) rfl p hp
            refine ⟨this.1, by push_cast at this ⊢; omega, this.2.2.1, ?_⟩
            have hb := this.2.2.2
            simp only [List.length_drop, List.length_cons] at hb ⊢
            push_cast at hb ⊢
            omega
        · rw [seqDiffAux, if_neg hab] at hp
          set k := countNe (a :: as) (b :: bs) with hk
          have hk1 : 1 ≤ k := by rw [hk]; simp [countNe, hab]
          have hkA : k ≤ as.length + 1 := by
            simpa using countNe_le_left (a :: as) (b :: bs)
          have hkB : k ≤ bs.length + 1 := by
            simpa using countNe_le_right (a :: as) (b :: bs)
          rw [List.mem_cons] at hp
          rcases hp with hp | hp
          · subst hp
            refine ⟨Or.inr ⟨rfl, ?_⟩, by simp, by simp [hk1], ?_⟩
            · simp only [List.length_take, List.length_cons, Int.toNat_natCast]
              omega
            · simp only [List.length_cons]
              push_cast
              omega
          · have := IH ((a :: as).drop k).length
              (by simp only [List.length_drop, List.length_cons] at hm ⊢; omega)
              ((a :: as).drop k) ((b :: bs).drop k) (i + k) rfl p hp
            refine ⟨this.1, by push_cast at this ⊢; omega, this.2.2.1, ?_⟩
            have hb := this.2.2.2
            simp only [List.length_drop, List.length_cons] at hb ⊢
            push_cast at hb ⊢
            omega

theorem sequentialDiff_encWF (A B : List Nat) (hA : A.length < 2 ^ 63)
    (hB : B.length < 2 ^ 63) : ∀ p ∈ sequentialDiff A B, encWF p := by
  intro p hp
  rw [sequentialDiff, List.mem_append] at hp
  rcases hp with hp | hp
  · have h := seqDiffAux_mem A.length A B 0 rfl p hp
    have hmin : min A.length B.length ≤ A.length := Nat.min_le_left _ _
    obtain ⟨hshape, hoff, hlen, hbound⟩ := h
    have hb : p.offset + p.length ≤ ((min A.length B.length : Nat) : Int) := by
      simpa using hbound
    rcases hshape with ⟨hcop, hdat⟩ | ⟨hrep, hdat⟩
    · exact ⟨by omega, by push_cast at hb ⊢; omega, by omega,
        by push_cast at hb ⊢; omega,
        fun hc => by rw [hcop] at hc; simp [OP_COPY, OP_INSERT, OP_REPLACE] at hc,
        fun _ => hdat⟩
    · refine ⟨by omega, by push_cast at hb ⊢; omega, by omega,
        by push_cast at hb ⊢; omega, fun _ => hdat, fun hc => ?_⟩
      exact absurd (Or.inr hrep) hc
  · rw [seqDiffTail] at hp
    have hminA : min A.length B.length ≤ A.length := Nat.min_le_left _ _
    have hminB : min A.length B.length ≤ B.length := Nat.min_le_right _ _
    by_cases hBm : B.length > min A.length B.length
    · rw [if_pos hBm] at hp
      simp only [List.mem_singleton] at hp
      subst hp
      refine ⟨by simp, by push_cast; omega, by push_cast; omega,
        by push_cast; omega, fun _ => ?_, fun hc => absurd (Or.inl rfl) hc⟩
      simp [List.length_drop]
      omega
    · rw [if_neg hBm] at hp
      by_cases hAm : A.length > min A.length B.length
      · rw [if_pos hAm] at hp
        simp only [List.mem_singleton] at hp
        subst hp
        refine ⟨by simp, by push_cast; omega, by push_cast; omega,
          by push_cast; omega,
          fun hc => by simp [OP_DELETE, OP_INSERT, OP_REPLACE] at hc, fun _ => rfl⟩
      · rw [if_neg hAm] at hp
        simp at hp


/-! ## Claim C1 -/

/-- C1: for all byte sequences A and B (of `int64`-representable length),
decoding the encoding of the reference diff of A and B gives back exactly
the diff operations, and replaying that decoded operation list against A
reproduces B: `apply(A, decode(encode(diff(A, B)))) == B`. -/
theorem C1_roundtrip (A B : List Nat) (hA : A.length < 2 ^ 63)
    (hB : B.length < 2 ^ 63) :
    DecodePatch (EncodePatch (sequentialDiff A B)) = .ok (sequentialDiff A B) ∧
      ApplyPatchWithOptions A (sequentialDiff A B) = some B :=
  ⟨DecodePatch_EncodePatch _ (sequentialDiff_encWF A B hA hB),
    apply_sequentialDiff A B hA⟩

/-- Witness for C1 at `A = [1,2,3]`, `B = [1,9,3,4]`. -/
theorem C1_roundtrip_witness :
    DecodePatch (EncodePatch (sequentialDiff [1, 2, 3] [1, 9, 3, 4])) =
        .ok (sequentialDiff [1, 2, 3] [1, 9, 3, 4]) ∧
      ApplyPatchWithOptions [1, 2, 3] (sequentialDiff [1, 2, 3] [1, 9, 3, 4]) =
        some [1, 9, 3, 4] :=
  C1_roundtrip [1, 2, 3] [1, 9, 3, 4] (by norm_num) (by norm_num)

/-! ## Optimizer lemmas -/

theorem mergeAdj_op (p q : Patch) : (mergeAdj p q).op = p.op := by
  unfold mergeAdj
  split <;> rfl

theorem mergeAdj_offset (p q : Patch) : (mergeAdj p q).offset = p.offset := by
  unfold mergeAdj
  split <;> rfl

theorem optLoop_head_eq (l : List Patch) :
    (optLoop l).head?.map (fun c => (c.op, c.offset)) =
      l.head?.map (fun p => (p.op, p.offset)) := by
  induction l using optLoop.induct with
  | case1 => simp [optLoop]
  | case2 p => simp [optLoop]
  | case3 p q rest hm ih =>
    rw [optLoop, if_pos hm, ih]
    simp [mergeAdj_op, mergeAdj_offset]
  | case4 p q rest hm ih =>
    rw [optLoop, if_neg hm]
    simp

theorem optLoop_head (p : Patch) (ps : List Patch) : ∃ c rest,
    optLoop (p :: ps) = c :: rest ∧ c.op = p.op ∧ c.offset = p.offset := by
  have h := optLoop_head_eq (p :: ps)
  cases hopt : optLoop (p :: ps) with
  | nil => rw [hopt] at h; simp at h
  | cons c rest =>
    rw [hopt] at h
    simp only [List.head?_cons, Option.map_some] at h
    obtain ⟨hop, hoff⟩ := Prod.mk.injEq .. ▸ (Option.some.injEq .. ▸ h)
    exact ⟨c, rest, rfl, hop, hoff⟩

theorem canMergeAdj_congr (p c q : Patch) (hop : c.op = q.op)
    (hoff : c.offset = q.offset) (h : canMergeAdj p c) : canMergeAdj p q := by
  unfold canMergeAdj at h ⊢
  rw [hop, hoff] at h
  exact h

theorem optLoop_chain (l : List Patch) :
    List.Chain' (fun a b => ¬ canMergeAdj a b) (optLoop l) := by
  induction l using optLoop.induct with
  | case1 => simp [optLoop]
  | case2 p => simp [optLoop]
  | case3 p q rest hm ih =>
    rw [optLoop, if_pos hm]
    exact ih
  | case4 p q rest hm ih =>
    rw [optLoop, if_neg hm]
    obtain ⟨c, rest2, heq, hop, hoff⟩ := optLoop_head q rest
    rw [heq] at ih ⊢
    exact List.Chain'.cons (fun hc => hm (canMergeAdj_congr p c q hop hoff hc)) ih

theorem optLoop_id_of_chain :
    ∀ l : List Patch, List.Chain' (fun a b => ¬ canMergeAdj a b) l →
      optLoop l = l := by
  intro l
  induction l using optLoop.induct with
  | case1 => intro _; simp [optLoop]
  | case2 p => intro _; simp [optLoop]
  | case3 p q rest hm ih =>
    intro hc
    exact absurd hm (List.chain'_cons.mp hc).1
  | case4 p q rest hm ih =>
    intro hc
    rw [optLoop, if_neg hm, ih (List.chain'_cons.mp hc).2]

theorem optLoop_offsets :
    ∀ l : List Patch, ∀ c ∈ optLoop l, ∃ p ∈ l, c.offset = p.offset := by
  intro l
  induction l using optLoop.induct with
  | case1 => simp [optLoop]
  | case2 p => simp [optLoop]
  | case3 p q rest hm ih =>
    intro c hc
    rw [optLoop, if_pos hm] at hc
    obtain ⟨r, hr, hoff⟩ := ih c hc
    rcases List.mem_cons.mp hr with h | h
    · exact ⟨p, by simp, by rw [hoff, h, mergeAdj_offset]⟩
    · exact ⟨r, by simp [h], hoff⟩
  | case4 p q rest hm ih =>
    intro c hc
    rw [optLoop, if_neg hm] at hc
    rcases List.mem_cons.mp hc with h | h
    · exact ⟨p, by simp, by rw [h]⟩
    · obtain ⟨r, hr, hoff⟩ := ih c h
      exact ⟨r, by simp [List.mem_cons.mp hr], hoff⟩

theorem optLoop_pairwise :
    ∀ l : List Patch,
      List.Pairwise (fun p q => p.offset < q.offset) l →
      List.Pairwise (fun p q => p.offset < q.offset) (optLoop l) := by
  intro l
  induction l using optLoop.induct with
  | case1 => intro _; simp [optLoop]
  | case2 p => intro _; simp [optLoop]
  | case3 p q rest hm ih =>
    intro hp
    rw [optLoop, if_pos hm]
    apply ih
    rw [List.pairwise_cons] at hp ⊢
    obtain ⟨h1, h2⟩ := hp
    rw [List.pairwise_cons] at h2
    refine ⟨fun r hr => ?_, h2.2⟩
    rw [mergeAdj_offset]
    exact h1 r (by simp [hr])
  | case4 p q rest hm ih =>
    intro hp
    rw [optLoop, if_neg hm]
    rw [List.pairwise_cons] at hp
    rw [List.pairwise_cons]
    refine ⟨fun r hr => ?_, ih hp.2⟩
    obtain ⟨s, hs, hoff⟩ := optLoop_offsets (q :: rest) r hr
    rw [hoff]
    exact hp.1 s hs

/-! ## Claim C5 -/

/-- C5: the exported optimizer is idempotent:
`OptimizePatches (OptimizePatches ops) = OptimizePatches ops` for every
operation list. -/
theorem C5_optimizer_idempotent (ps : List Patch) :
    OptimizePatches (OptimizePatches ps) = OptimizePatches ps := by
  unfold OptimizePatches
  by_cases h : ps.length ≤ 1
  · rw [if_pos h, if_pos h]
  · rw [if_neg h]
    by_cases h2 : (optLoop ps).length ≤ 1
    · rw [if_pos h2]
    · rw [if_neg h2]
      exact optLoop_id_of_chain _ (optLoop_chain ps)

/-! ## Claim C6 -/

theorem seqDiffAux_pairwise :
    ∀ (m : Nat) (o n : List Nat) (i : Nat), o.length = m →
      List.Pairwise (fun p q => p.offset < q.offset) (seqDiffAux o n i) := by
  intro m
  induction m using Nat.strong_induction_on with
  | _ m IH =>
    intro o n i hm
    rcases o with _ | ⟨a, as⟩
    · simp [seqDiffAux]
    · rcases n with _ | ⟨b, bs⟩
      · simp [seqDiffAux]
      · by_cases hab : a = b
        · rw [seqDiffAux, if_pos hab]
          set k := countEq (a :: as) (b :: bs) with hk
          have hk1 : 1 ≤ k := by rw [hk]; simp [countEq, hab]
          rw [List.pairwise_cons]
          refine ⟨fun q hq => ?_, ?_⟩
          · have := (seqDiffAux_mem ((a :: as).drop k).length
              ((a :: as).drop k) ((b :: bs).drop k) (i + k) rfl q hq).2.1
            simp only
            push_cast at this ⊢
            omega
          · exact IH ((a :: as).drop k).length
              (by simp only [List.length_drop, List.length_cons] at hm ⊢; omega)
              ((a :: as).drop k) ((b :: bs).drop k) (i + k) rfl
        · rw [seqDiffAux, if_neg hab]
          set k := countNe (a :: as) (b :: bs) with hk
          have hk1 : 1 ≤ k := by rw [hk]; simp [countNe, hab]
          rw [List.pairwise_cons]
          refine ⟨fun q hq => ?_, ?_⟩
          · have := (seqDiffAux_mem ((a :: as).drop k).length
              ((a :: as).drop k) ((b :: bs).drop k) (i + k) rfl q hq).2.1
            simp only
            push_cast at this ⊢
            omega
          · exact IH ((a :: as).drop k).length
              (by simp only [List.length_drop, List.length_cons] at hm ⊢; omega)
              ((a :: as).drop k) ((b :: bs).drop k) (i + k) rfl

theorem sequentialDiff_pairwise (A B : List Nat) :
    List.Pairwise (fun p q => p.offset < q.offset) (sequentialDiff A B) := by
  rw [sequentialDiff, List.pairwise_append]
  refine ⟨seqDiffAux_pairwise A.length A B 0 rfl, ?_, ?_⟩
  · unfold seqDiffTail
    dsimp only
    split_ifs <;> simp
  · intro p hp q hq
    have hmem := seqDiffAux_mem A.length A B 0 rfl p hp
    have hoffp : p.offset + p.length ≤ ((min A.length B.length : Nat) : Int) := by
      have := hmem.2.2.2
      simpa using this
    have hlenp := hmem.2.2.1
    unfold seqDiffTail at hq
    dsimp only at hq
    split_ifs at hq with h1 h2
    · simp only [List.mem_singleton] at hq
      subst hq
      simp only
      omega
    · simp only [List.mem_singleton] at hq
      subst hq
      simp only
      omega
    · simp at hq

/-- C6: the reference differ always emits its operation list in strictly
increasing offset order, and `OptimizePatches` maps a strictly increasing
operation list to a strictly increasing one. -/
theorem C6_strict_offsets :
    (∀ A B : List Nat,
      List.Pairwise (fun p q => p.offset < q.offset) (sequentialDiff A B)) ∧
    (∀ ops : List Patch,
      List.Pairwise (fun p q => p.offset < q.offset) ops →
      List.Pairwise (fun p q => p.offset < q.offset) (OptimizePatches ops)) := by
  refine ⟨sequentialDiff_pairwise, fun ops h => ?_⟩
  unfold OptimizePatches
  split
  · exact h
  · exact optLoop_pairwise ops h

/-- Witness for C6: the differ output for `([0], [1])` and the optimizer
output for a two-element strictly increasing list. -/
theorem C6_strict_offsets_witness :
    List.Pairwise (fun p q => p.offset < q.offset) (sequentialDiff [0] [1]) ∧
      List.Pairwise (fun p q => p.offset < q.offset)
        (OptimizePatches [Patch.mk OP_COPY 0 2 [], Patch.mk OP_REPLACE 2 1 [9]]) :=
  ⟨C6_strict_offsets.1 [0] [1],
    C6_strict_offsets.2 _ (by simp [List.pairwise_cons])⟩

/-! ## Claim C7 -/

/-- C7: an operation whose offset exceeds the length of the old data is
skipped without touching the output buffer or the cursor, and the applier
produces exactly the result it would produce on the list with that
operation removed. -/
theorem C7_skip_out_of_range (old : List Nat) (pre post : List Patch)
    (p : Patch) (h : p.offset > (old.length : Int)) :
    (∀ st : List Nat × Int, applyStep old st p = some st) ∧
      ApplyPatchWithOptions old (pre ++ p :: post) =
        ApplyPatchWithOptions old (pre ++ post) := by
  have hstep : ∀ st : List Nat × Int, applyStep old st p = some st := by
    intro st
    unfold applyStep
    rw [if_pos h]
  refine ⟨hstep, ?_⟩
  unfold ApplyPatchWithOptions
  rw [applyOps_append, applyOps_append]
  have hsame : ∀ st, applyOps old (p :: post) st = applyOps old post st := by
    intro st
    show (applyStep old st p).bind (applyOps old post) = applyOps old post st
    rw [hstep st, Option.some_bind]
  cases applyOps old pre ([], 0) with
  | none => simp
  | some st => simp [hsame st]

/-- Witness for C7 at `old = [5]`, an out-of-range `INSERT` at offset 9
between two in-range operations. -/
theorem C7_skip_out_of_range_witness :
    (∀ st : List Nat × Int,
      applyStep [5] st (Patch.mk OP_INSERT 9 1 [7]) = some st) ∧
      ApplyPatchWithOptions [5]
          ([Patch.mk OP_COPY 0 1 []] ++ Patch.mk OP_INSERT 9 1 [7] ::
            [Patch.mk OP_INSERT 1 1 [8]]) =
        ApplyPatchWithOptions [5]
          ([Patch.mk OP_COPY 0 1 []] ++ [Patch.mk OP_INSERT 1 1 [8]]) :=
  C7_skip_out_of_range [5] [Patch.mk OP_COPY 0 1 []]
    [Patch.mk OP_INSERT 1 1 [8]] (Patch.mk OP_INSERT 9 1 [7]) (by norm_num)

/-! ## Claim C10 -/

theorem totalLen_cons (p : Patch) (ps : List Patch) :
    totalLen (p :: ps) = p.length + totalLen ps := by
  simp [totalLen]

theorem totalLen_nonneg (ps : List Patch) (h : ∀ p ∈ ps, 0 ≤ p.length) :
    0 ≤ totalLen ps := by
  induction ps with
  | nil => simp [totalLen]
  | cons p ps ih =>
    rw [totalLen_cons]
    have h1 := h p (by simp)
    have h2 := ih fun q hq => h q (by simp [hq])
    omega

theorem applySwitch_total_bounded (old out : List Nat) (cur : Int) (p : Patch)
    (hcur : 0 ≤ cur) (hlen : 0 ≤ p.length)
    (hub : max cur (old.length : Int) + p.length < 2 ^ 63) :
    ∃ st' : List Nat × Int,
      (fun (st : List Nat × Int) =>
        if p.op = OP_INSERT then
          some (st.1 ++ p.data, st.2)
        else if p.op = OP_REPLACE then
          some (st.1 ++ p.data, i64 (st.2 + p.length))
        else if p.op = OP_DELETE then
          some (st.1, i64 (st.2 + p.length))
        else if p.op = OP_COPY ∨ p.op = OP_MATCH then
          let endPos := i64 (st.2 + p.length)
          let endPos :=
            if endPos > (old.length : Int) then (old.length : Int) else endPos
          if st.2 < (old.length : Int) ∧ endPos > st.2 then
            (goSlice old st.2 endPos).map fun s => (st.1 ++ s, endPos)
          else some st
        else some st) (out, cur) = some st' ∧
        0 ≤ st'.2 ∧ st'.2 ≤ max cur (old.length : Int) + p.length := by
  dsimp only
  have hmax1 : cur ≤ max cur (old.length : Int) := le_max_left _ _
  have hmax2 : (old.length : Int) ≤ max cur (old.length : Int) := le_max_right _ _
  rw [i64_eq_of_lt (cur + p.length) (by omega) (by omega)]
  split_ifs with ha hb hc hd he hf hg
  · exact ⟨_, rfl, hcur, by dsimp only; omega⟩
  · exact ⟨_, rfl, by dsimp only; omega, by dsimp only; omega⟩
  · exact ⟨_, rfl, by dsimp only; omega, by dsimp only; omega⟩
  · have hsl : goSlice old cur (old.length : Int) =
        some ((old.take ((old.length : Int)).toNat).drop cur.toNat) := by
      unfold goSlice
      rw [if_pos ⟨hcur, by omega, by omega⟩]
    rw [hsl]
    exact ⟨_, rfl, by dsimp only; omega, by dsimp only; omega⟩
  · exact ⟨_, rfl, hcur, by dsimp only; omega⟩
  · have hsl : goSlice old cur (cur + p.length) =
        some ((old.take (cur + p.length).toNat).drop cur.toNat) := by
      unfold goSlice
      rw [if_pos ⟨hcur, by omega, by omega⟩]
    rw [hsl]
    exact ⟨_, rfl, by dsimp only; omega, by dsimp only; omega⟩
  · exact ⟨_, rfl, hcur, by dsimp only; omega⟩
  · exact ⟨_, rfl, hcur, by dsimp only; omega⟩

theorem applyStep_total_bounded (old : List Nat) (st : List Nat × Int)
    (p : Patch) (hst : 0 ≤ st.2) (hlen : 0 ≤ p.length)
    (hub : max st.2 (old.length : Int) + p.length < 2 ^ 63) :
    ∃ st', applyStep old st p = some st' ∧ 0 ≤ st'.2 ∧
      st'.2 ≤ max st.2 (old.length : Int) + p.length := by
  unfold applyStep
  have hmax1 : st.2 ≤ max st.2 (old.length : Int) := le_max_left _ _
  have hmax2 : (old.length : Int) ≤ max st.2 (old.length : Int) := le_max_right _ _
  by_cases h1 : p.offset > (old.length : Int)
  · exact ⟨st, by rw [if_pos h1], hst, by omega⟩
  rw [if_neg h1]
  by_cases h2 : p.offset > st.2
  · rw [if_pos h2]
    have hsl : goSlice old st.2 p.offset =
        some ((old.take p.offset.toNat).drop st.2.toNat) := by
      unfold goSlice
      rw [if_pos ⟨hst, by omega, by omega⟩]
    rw [hsl]
    simp only [Option.map_some, Option.some_bind]
    obtain ⟨st', heq, hpos, hle⟩ := applySwitch_total_bounded old
      (st.1 ++ (old.take p.offset.toNat).drop st.2.toNat) p.offset p
      (by omega) hlen (by rw [max_eq_right (by omega : p.offset ≤ (old.length : Int))]; omega)
    rw [max_eq_right (by omega : p.offset ≤ (old.length : Int))] at hle
    exact ⟨st', heq, hpos, by omega⟩
  · rw [if_neg h2]
    simp only [Option.some_bind]
    obtain ⟨st', heq, hpos, hle⟩ := applySwitch_total_bounded old st.1 st.2 p hst hlen hub
    exact ⟨st', heq, hpos, hle⟩

theorem applyOps_total_bounded (old : List Nat) :
    ∀ (ps : List Patch) (st : List Nat × Int), 0 ≤ st.2 →
      (∀ p ∈ ps, 0 ≤ p.length) →
      max st.2 (old.length : Int) + totalLen ps < 2 ^ 63 →
      ∃ st', applyOps old ps st = some st' ∧ 0 ≤ st'.2 := by
  intro ps
  induction ps with
  | nil => exact fun st hst _ _ => ⟨st, rfl, hst⟩
  | cons p ps ih =>
    intro st hst hl hb
    have hplen := hl p (by simp)
    have hrest : 0 ≤ totalLen ps := totalLen_nonneg ps fun q hq => hl q (by simp [hq])
    rw [totalLen_cons] at hb
    obtain ⟨st1, hst1, hpos1, hle1⟩ :=
      applyStep_total_bounded old st p hst hplen (by omega)
    obtain ⟨st2, hst2, hpos2⟩ := ih st1 hpos1 (fun q hq => hl q (by simp [hq])) (by
      have hm1 : st1.2 ≤ max st.2 (old.length : Int) + p.length := hle1
      have hm2 : (old.length : Int) ≤ max st.2 (old.length : Int) := le_max_right _ _
      have : max st1.2 (old.length : Int) ≤ max st.2 (old.length : Int) + p.length := by
        apply max_le <;> omega
      omega)
    exact ⟨st2, by rw [applyOps, hst1, Option.some_bind, hst2], hpos2⟩

/-- C10 (amended): the applier is total and performs no out-of-range
slice on any operation list with non-negative lengths and arbitrary
offsets, provided the total of the length fields (plus the old size)
stays below 2^63 so the cursor arithmetic cannot wrap; without that
bound the Go `int` cursor overflows to a negative value and the
subsequent slice of the old data panics. -/
theorem C10_apply_total (old : List Nat) (ps : List Patch)
    (h : ∀ p ∈ ps, 0 ≤ p.length)
    (hbound : (old.length : Int) + totalLen ps < 2 ^ 63) :
    ∃ out, ApplyPatchWithOptions old ps = some out := by
  obtain ⟨st, hst, hpos⟩ := applyOps_total_bounded old ps ([], 0) (by norm_num) h
    (by rw [max_eq_right (by positivity : (0 : Int) ≤ (old.length : Int))]; omega)
  unfold ApplyPatchWithOptions
  rw [hst, Option.some_bind]
  by_cases hc : st.2 < (old.length : Int)
  · rw [if_pos hc]
    have hsl : goSlice old st.2 (old.length : Int) =
        some ((old.take ((old.length : Int)).toNat).drop st.2.toNat) := by
      unfold goSlice
      rw [if_pos ⟨hpos, by omega, by omega⟩]
    rw [hsl]
    exact ⟨_, rfl⟩
  · rw [if_neg hc]
    exact ⟨st.1, rfl⟩

/-- Witness for the amended C10: a list mixing a negative offset, an
overlong `DELETE`, an out-of-range `COPY` and an out-of-range `INSERT`
still applies to a concrete old buffer. -/
theorem C10_apply_total_witness :
    ∃ out, ApplyPatchWithOptions [1, 2, 3]
        [Patch.mk OP_COPY (-4) 2 [], Patch.mk OP_DELETE 0 9 [],
          Patch.mk OP_COPY 2 5 [], Patch.mk OP_INSERT 99 1 [7]] = some out :=
  C10_apply_total [1, 2, 3] _ (by decide) (by decide)

/-- C10 counterexample: two `DELETE` operations of length 2^62 (a
perfectly decodable 35-byte patch stream) advance the `int` cursor to
2^63, which wraps to -2^63; the following in-range `COPY` then slices
the old data at a negative index — a runtime panic (`none`), even though
every length field is non-negative. -/
theorem C10_cursor_overflow_counterexample :
    (∀ p ∈ [Patch.mk OP_DELETE 0 (2 ^ 62) [], Patch.mk OP_DELETE 0 (2 ^ 62) [],
        Patch.mk OP_COPY 0 1 []], 0 ≤ p.length) ∧
      ApplyPatchWithOptions [0]
        [Patch.mk OP_DELETE 0 (2 ^ 62) [], Patch.mk OP_DELETE 0 (2 ^ 62) [],
          Patch.mk OP_COPY 0 1 []] = none := by
  exact ⟨by decide, by decide⟩

/-! ## Claim C3 -/

theorem optSmallLoop_id_of_chain :
    ∀ l : List Patch, List.Chain' (fun a b => ¬ canMergePatches a b) l →
      optSmallLoop l = l := by
  intro l
  induction l using optSmallLoop.induct with
  | case1 => intro _; simp [optSmallLoop]
  | case2 p => intro _; simp [optSmallLoop]
  | case3 p q rest hm ih =>
    intro hc
    exact absurd hm (List.chain'_cons.mp hc).1
  | case4 p q rest hm ih =>
    intro hc
    rw [optSmallLoop, if_neg hm, ih (List.chain'_cons.mp hc).2]

theorem optimizePatches_id_of_chain (l : List Patch)
    (h : List.Chain' (fun a b => ¬ canMergePatches a b) l) :
    optimizePatches l = l := by
  unfold optimizePatches
  split
  · rfl
  · exact optSmallLoop_id_of_chain l h

theorem chain_no_merge_of_no_insert :
    ∀ l : List Patch, (∀ p ∈ l, p.op ≠ OP_INSERT) →
      List.Chain' (fun a b => ¬ canMergePatches a b) l := by
  intro l
  induction l with
  | nil => simp
  | cons p rest ih =>
    intro h
    cases rest with
    | nil => simp
    | cons q rest2 =>
      rw [List.chain'_cons]
      refine ⟨fun hc => h p (by simp) hc.2.1, ih fun r hr => h r (by simp [hr])⟩

theorem sequentialDiff_chain_no_merge (A B : List Nat) :
    List.Chain' (fun a b => ¬ canMergePatches a b) (sequentialDiff A B) := by
  rw [sequentialDiff, List.chain'_append]
  refine ⟨?_, ?_, ?_⟩
  · apply chain_no_merge_of_no_insert
    intro p hp
    have := (seqDiffAux_mem A.length A B 0 rfl p hp).1
    rcases this with ⟨h, _⟩ | ⟨h, _⟩ <;> rw [h] <;>
      simp [OP_COPY, OP_REPLACE, OP_INSERT]
  · unfold seqDiffTail
    dsimp only
    split_ifs <;> simp
  · intro x hx y _
    have hxmem : x ∈ seqDiffAux A B 0 := by
      obtain ⟨hne, hx2⟩ := List.mem_getLast?_eq_getLast hx
      rw [hx2]
      exact List.getLast_mem hne
    have hshape := (seqDiffAux_mem A.length A B 0 rfl x hxmem).1
    intro hc
    obtain ⟨h1, h2, h3⟩ := hc
    rcases hshape with ⟨h, _⟩ | ⟨h, _⟩ <;> rw [h] at h2 <;>
      simp [OP_COPY, OP_REPLACE, OP_INSERT] at h2

theorem streamLoop_past_end (old new : List Nat) (chunk : Nat) :
    ∀ (fuel offset : Nat), new.length ≤ offset →
      streamLoop old new chunk offset fuel = [] := by
  intro fuel offset h
  cases fuel with
  | zero => rfl
  | succ f =>
    rw [streamLoop, if_neg (by omega)]

theorem map_shift_zero (ps : List Patch) :
    ps.map (fun p => { p with offset := p.offset + ((0 : Nat) : Int) }) = ps := by
  induction ps with
  | nil => rfl
  | cons p ps ih =>
    cases p
    simp [ih]

theorem streamChunkSize_pos (cfg : Config) : 0 < streamChunkSize cfg := by
  unfold streamChunkSize
  dsimp only
  split_ifs with h
  · norm_num
  · omega

theorem streamingDiff_single_window (old new : List Nat) (cfg : Config)
    (h1 : 1 ≤ new.length) (h2 : (new.length : Int) ≤ streamChunkSize cfg) :
    streamingDiff old new cfg = sequentialDiff old new := by
  unfold streamingDiff
  have hchunk : new.length ≤ (streamChunkSize cfg).toNat := by
    have := streamChunkSize_pos cfg
    omega
  obtain ⟨mm, hmm⟩ : ∃ mm, new.length = mm + 1 := ⟨new.length - 1, by omega⟩
  rw [hmm, streamLoop, if_pos (by omega)]
  have hend : min (0 + (streamChunkSize cfg).toNat) new.length = new.length := by
    omega
  rw [hend]
  dsimp only
  rw [List.take_length, List.drop_zero]
  rw [streamLoop_past_end old new _ mm _ (by omega)]
  rw [List.append_nil, map_shift_zero]
  exact optimizePatches_id_of_chain _ (sequentialDiff_chain_no_merge old new)

/-- C3 counterexample: with a 1 MiB memory ceiling, `OLD` of 2^20 + 1
zero bytes and `NEW` empty exceed the ceiling and the dispatcher selects
the streaming strategy, but the streaming differ emits an empty operation
list whose application returns `OLD`, not `NEW`. -/
theorem C3_streaming_counterexample :
    ((bigOld.length + ([] : List Nat).length : Nat) : Int) >
        i64 (smallMemConfig.maxMemoryMB * 1024 * 1024) ∧
      DiffWithOptions bigOld [] smallMemConfig =
        streamingDiff bigOld [] smallMemConfig ∧
      streamingDiff bigOld [] smallMemConfig = [] ∧
      ApplyPatchWithOptions bigOld (streamingDiff bigOld [] smallMemConfig) =
        some bigOld ∧
      some bigOld ≠ some ([] : List Nat) := by
  have hlen : bigOld.length = 2 ^ 20 + 1 := by
    rw [bigOld, List.length_replicate]
  have htrig : ((bigOld.length + ([] : List Nat).length : Nat) : Int) >
      i64 (smallMemConfig.maxMemoryMB * 1024 * 1024) := by
    rw [hlen]
    norm_num [smallMemConfig, DefaultConfig, i64]
  have hstream : streamingDiff bigOld [] smallMemConfig = [] := by
    unfold streamingDiff
    rw [show ([] : List Nat).length = 0 from rfl]
    rfl
  refine ⟨htrig, ?_, hstream, ?_, ?_⟩
  · unfold DiffWithOptions
    dsimp only
    rw [if_pos htrig]
  · rw [hstream]
    unfold ApplyPatchWithOptions
    rw [show applyOps bigOld [] ([], 0) = some ([], 0) from rfl, Option.some_bind]
    have hpos : ((0 : Nat) : Int) < (bigOld.length : Int) := by
      rw [hlen]; norm_num
    rw [if_pos (by simpa using hpos)]
    unfold goSlice
    rw [if_pos ⟨by norm_num, by simpa using le_of_lt hpos, le_refl _⟩]
    rw [show ((bigOld.length : Int)).toNat = bigOld.length from Int.toNat_natCast _]
    rw [List.take_length]
    rw [show (((([], 0) : List Nat × Int)).2).toNat = 0 from rfl]
    rw [List.drop_zero]
    show some (([], 0).1 ++ bigOld) = some bigOld
    rw [show (([], 0) : List Nat × Int).1 ++ bigOld = bigOld from List.nil_append _]
  · intro h
    have hcontra : bigOld = ([] : List Nat) := Option.some_injective _ h
    have hl := congrArg List.length hcontra
    rw [hlen] at hl
    simp at hl

/-- C3 (amended): when `NEW` is non-empty and fits inside a single
streaming window (`|NEW| ≤ chunk_size`), the streaming strategy reduces
to the optimized sequential diff and applying its output to `OLD`
reproduces `NEW` exactly. -/
theorem C3_streaming_single_window_valid (old new : List Nat) (cfg : Config)
    (h0 : old.length < 2 ^ 63) (h1 : 1 ≤ new.length)
    (h2 : (new.length : Int) ≤ streamChunkSize cfg) :
    ApplyPatchWithOptions old (streamingDiff old new cfg) = some new := by
  rw [streamingDiff_single_window old new cfg h1 h2]
  exact apply_sequentialDiff old new h0

/-- Witness for the amended C3 with the default configuration. -/
theorem C3_streaming_single_window_valid_witness :
    ApplyPatchWithOptions [1, 2] (streamingDiff [1, 2] [9] DefaultConfig) =
      some [9] :=
  C3_streaming_single_window_valid [1, 2] [9] DefaultConfig (by norm_num)
    (by norm_num) (by decide)

/-! ## Claim C4 -/

theorem CompareHashes_eq_true_iff :
    ∀ a b : List Nat, CompareHashes a b = true ↔ a = b := by
  intro a
  induction a with
  | nil => intro b; cases b <;> simp [CompareHashes]
  | cons x xs ih =>
    intro b
    cases b with
    | nil => simp [CompareHashes]
    | cons y ys => simp [CompareHashes, ih]

/-- C4: whenever the container's `old_hash` differs from the SHA-256 of
the old data, the apply driver fails with the hash-mismatch error before
replaying any operation and emits no output bytes. -/
theorem C4_hash_gate (oldData : List Nat) (df : DiffFile) (verify : Bool)
    (h : df.oldHash ≠ ComputeHash oldData) :
    runApplyDecoded oldData df verify = .hashMismatch := by
  unfold runApplyDecoded
  rw [if_neg fun hc => h ((CompareHashes_eq_true_iff _ _).mp hc).symm]

/-- Witness for C4: an empty old file against a container whose
`old_hash` field is empty (and thus not the 32-byte SHA-256 digest). -/
theorem C4_hash_gate_witness :
    runApplyDecoded [] (DiffFile.mk 0 0 0 [] 0 [] 0 0 [] [] 0 0 []) false =
      .hashMismatch :=
  C4_hash_gate [] (DiffFile.mk 0 0 0 [] 0 [] 0 0 [] [] 0 0 []) false (by decide)

/-! ## Claim C9 -/

theorem decCons_panicOnlyNegative (p : Patch) (r : DecPRes)
    (h : panicOnlyNegative r) : panicOnlyNegative (decCons p r) := by
  cases r <;> simpa [decCons, panicOnlyNegative] using h

/-- C9 (amended): the operation-stream decoder is total except for the
`make([]byte, length)` call: on every input it returns a list of
operations or an error without reading out of bounds, and the only panic
it can reach is the negative-size buffer allocation — every decoded
length that reaches `make` non-negatively is handled by the
read-with-error path. -/
theorem C9_decode_total_except_negative_make (bs : List Nat) :
    panicOnlyNegative (DecodePatch bs) := by
  unfold DecodePatch
  generalize bs.length = fuel
  induction fuel generalizing bs with
  | zero =>
    cases bs <;> simp [decodeOps, panicOnlyNegative]
  | succ f ih =>
    cases bs with
    | nil => simp [decodeOps, panicOnlyNegative]
    | cons b rest =>
      rw [decodeOps]
      dsimp only
      split_ifs with h1 h2 h3 h4 h5
      · simpa [panicOnlyNegative] using h4
      · exact decCons_panicOnlyNegative _ _ (ih _)
      · simp [panicOnlyNegative]
      · exact decCons_panicOnlyNegative _ _ (ih _)
      · simp [panicOnlyNegative]
      · simp [panicOnlyNegative]

/-- C9 counterexample: a single-operation stream declaring an `INSERT`
with length `-1` drives `DecodePatch` into the negative-size `make`
panic instead of an error return. -/
theorem C9_negative_length_panics : DecodePatch negLenStream = .panic (-1) := by
  decide

/-! ## Claim C2 -/

/-- C2: `DecodeDiffFile` performs no magic or version verification: a
container whose magic word is zero (not `0x42444646`) decodes without
any error into a well-formed record.  The project documentation claims a
magic check and a version compatibility check, and the specification
requires rejection with `BadPatch`; no such check exists in the code. -/
theorem C2_no_magic_version_check :
    DecodeDiffFile wrongMagicStream =
      .ok (DiffFile.mk 0 1 0 [] 0 [] 0 0 (List.replicate 32 0)
        (List.replicate 32 0) 0 0 []) ∧
      (0 : Nat) ≠ PATCH_MAGIC := by
  constructor
  · decide
  · decide

end BinDiff
